import Mathlib

/-!
Verification of the "stress" reduction-quality metric from the lecture
notebook `6-dimensional_reduction.ipynb`.

The source function is:

  def stress(X_reduced, X):
      D_red = pdist(X_reduced)
      D_tot = pdist(X)
      numerator = np.sum((D_tot - D_red)**2)
      denom = np.sum(D_tot**2)
      return np.sqrt(numerator/denom)

We embed datasets as lists of points (each point a list of reals),
`pdist` as the condensed list of Euclidean distances over unordered
pairs (i, j), i < j, in scipy's row-major order, and numpy's 1-D
broadcasting subtraction as a partial operation (`none` models the
numpy broadcast ValueError, the only way the source code can fail).
-/

namespace DimRed

/-- Euclidean (L2) distance between two points, as computed by
`scipy.spatial.distance.pdist` on rows of equal length. -/
noncomputable def euclid (p q : List ℝ) : ℝ :=
  Real.sqrt ((List.zipWith (fun a b => (a - b) ^ 2) p q).sum)

/-- `scipy.spatial.distance.pdist`: the condensed list of pairwise
Euclidean distances, over pairs (i, j) with i < j, in row-major order:
(0,1), (0,2), ..., (0,n-1), (1,2), ... -/
noncomputable def pdist : List (List ℝ) → List ℝ
  | [] => []
  | p :: rest => rest.map (euclid p) ++ pdist rest

/-- numpy broadcasting subtraction of two 1-D arrays: defined when the
lengths agree or one operand has length 1 (which is then broadcast);
any other length combination raises a ValueError, modelled as `none`. -/
def sub1d (xs ys : List ℝ) : Option (List ℝ) :=
  if xs.length = ys.length then some (List.zipWith (fun a b => a - b) xs ys)
  else if xs.length = 1 then some (ys.map (fun y => xs.headI - y))
  else if ys.length = 1 then some (xs.map (fun x => x - ys.headI))
  else none

/-- The source `stress(X_reduced, X)`: condensed distances of both
inputs, numerator `np.sum((D_tot - D_red)**2)`, denominator
`np.sum(D_tot**2)`, result `np.sqrt(numerator/denom)`. -/
noncomputable def stress (X_reduced X : List (List ℝ)) : Option ℝ :=
  let D_red := pdist X_reduced
  let D_tot := pdist X
  (sub1d D_tot D_red).map (fun diff =>
    Real.sqrt ((diff.map (fun t => t ^ 2)).sum / ((D_tot.map (fun t => t ^ 2)).sum)))

/-- The source line `denom = np.sum(D_tot**2)`: sum of squared
original-space pairwise distances. -/
noncomputable def denomOf (X : List (List ℝ)) : ℝ :=
  ((pdist X).map (fun t => t ^ 2)).sum

/-- The spec's formula, written as the spec states it:
stress = sqrt( Σ_{i<j} (d_ij − e_ij)² / Σ_{i<j} d_ij² ), where
d_ij = ‖original[i] − original[j]‖₂ and e_ij = ‖reduced[i] − reduced[j]‖₂,
the sums ranging over all unordered pairs (i, j), i < j. -/
noncomputable def stressSpec (original reduced : List (List ℝ)) : ℝ :=
  Real.sqrt (
    (∑ i ∈ Finset.range original.length, ∑ j ∈ Finset.Ioo i original.length,
      (euclid (original.getD i []) (original.getD j [])
        - euclid (reduced.getD i []) (reduced.getD j [])) ^ 2)
    / (∑ i ∈ Finset.range original.length, ∑ j ∈ Finset.Ioo i original.length,
      (euclid (original.getD i []) (original.getD j [])) ^ 2))

/-! ### Basic lemmas about the embedding -/

theorem euclid_self (p : List ℝ) : euclid p p = 0 := by
  have h : (List.zipWith (fun a b => (a - b) ^ 2) p p).sum = 0 := by
    induction p with
    | nil => simp
    | cons a t ih => simp [ih]
  simp [euclid, h]

theorem pdist_length (X : List (List ℝ)) : (pdist X).length = X.length.choose 2 := by
  induction X with
  | nil => simp [pdist]
  | cons p rest ih =>
    simp only [pdist, List.length_append, List.length_map, ih, List.length_cons]
    rw [Nat.choose_succ_succ, Nat.choose_one_right]

theorem sub1d_eq_of_length_eq (xs ys : List ℝ) (h : xs.length = ys.length) :
    sub1d xs ys = some (List.zipWith (fun a b => a - b) xs ys) := by
  simp [sub1d, h]

theorem sub1d_isSome_iff (xs ys : List ℝ) :
    (sub1d xs ys).isSome = true ↔
      xs.length = ys.length ∨ xs.length = 1 ∨ ys.length = 1 := by
  unfold sub1d
  split_ifs with h1 h2 h3 <;> simp_all

theorem zipWith_sub_self_sq_sum (l : List ℝ) :
    ((List.zipWith (fun a b => a - b) l l).map (fun t => t ^ 2)).sum = 0 := by
  induction l with
  | nil => simp
  | cons a t ih => simp [ih]

/-- If the two condensed distance lists are equal, the numerator is zero
and the stress is exactly 0 (even when the denominator vanishes, since
real division by zero yields 0 and sqrt 0 = 0). -/
theorem stress_of_pdist_eq (X_reduced X : List (List ℝ))
    (h : pdist X_reduced = pdist X) : stress X_reduced X = some 0 := by
  unfold stress
  rw [h]
  simp only [sub1d_eq_of_length_eq _ _ rfl, Option.map_some]
  simp [zipWith_sub_self_sq_sum]

/-- Unfolding of `stress` through `sub1d`, with the denominator named. -/
theorem stress_eq (X_reduced X : List (List ℝ)) :
    stress X_reduced X = (sub1d (pdist X) (pdist X_reduced)).map (fun diff =>
      Real.sqrt ((diff.map (fun t => t ^ 2)).sum / denomOf X)) := rfl

theorem zip_sq_sum_nonneg : ∀ p q : List ℝ,
    0 ≤ (List.zipWith (fun a b => (a - b) ^ 2) p q).sum := by
  intro p
  induction p with
  | nil => intro q; simp
  | cons a t ih =>
    intro q
    cases q with
    | nil => simp
    | cons b s =>
      simp only [List.zipWith_cons_cons, List.sum_cons]
      have h1 := sq_nonneg (a - b)
      have h2 := ih s
      linarith

theorem euclid_sq (p q : List ℝ) :
    euclid p q ^ 2 = (List.zipWith (fun a b => (a - b) ^ 2) p q).sum :=
  Real.sq_sqrt (zip_sq_sum_nonneg p q)

theorem real_sqrt_of_sq (b a : ℝ) (hb : 0 ≤ b) (h : b ^ 2 = a) :
    Real.sqrt a = b := by
  rw [← h, Real.sqrt_sq hb]

theorem mem_pdist (X : List (List ℝ)) (d : ℝ) (hd : d ∈ pdist X) :
    ∃ p ∈ X, ∃ q ∈ X, d = euclid p q := by
  induction X with
  | nil => simp [pdist] at hd
  | cons p rest ih =>
    simp only [pdist, List.mem_append, List.mem_map] at hd
    rcases hd with ⟨q, hq, rfl⟩ | h
    · exact ⟨p, by simp, q, by simp [hq], rfl⟩
    · obtain ⟨a, ha, b, hb, rfl⟩ := ih h
      exact ⟨a, by simp [ha], b, by simp [hb], rfl⟩

theorem denomOf_eq_zero_of_coincide (X : List (List ℝ))
    (hco : ∀ p ∈ X, ∀ q ∈ X, p = q) : denomOf X = 0 := by
  unfold denomOf
  apply List.sum_eq_zero
  intro x hx
  simp only [List.mem_map] at hx
  obtain ⟨d, hd, rfl⟩ := hx
  obtain ⟨p, hp, q, hq, rfl⟩ := mem_pdist X d hd
  rw [hco p hp q hq, euclid_self]
  norm_num

/-! ### Arithmetic of `Nat.choose 2` (condensed-array lengths) -/

theorem two_mul_choose_two (n : ℕ) : 2 * n.choose 2 = n * (n - 1) := by
  induction n with
  | zero => rfl
  | succ m ih =>
    rw [Nat.choose_succ_succ, Nat.choose_one_right, Nat.mul_add, ih, Nat.succ_sub_one]
    cases m with
    | zero => rfl
    | succ k =>
      rw [Nat.succ_sub_one]
      ring

theorem choose_two_eq_iff (n m : ℕ) :
    n.choose 2 = m.choose 2 ↔ (n = m ∨ (n ≤ 1 ∧ m ≤ 1)) := by
  constructor
  · intro h
    by_cases hn : n ≤ 1
    · by_cases hm : m ≤ 1
      · exact Or.inr ⟨hn, hm⟩
      · exfalso
        have hc : 0 < m.choose 2 := Nat.choose_pos (by omega)
        interval_cases n <;> simp_all
    · by_cases hm : m ≤ 1
      · exfalso
        have hc : 0 < n.choose 2 := Nat.choose_pos (by omega)
        interval_cases m <;> simp_all
      · left
        obtain ⟨a, rfl⟩ : ∃ a, n = a + 2 := ⟨n - 2, by omega⟩
        obtain ⟨b, rfl⟩ : ∃ b, m = b + 2 := ⟨m - 2, by omega⟩
        have h1 : 2 * ((a + 2).choose 2) = (a + 2) * (a + 1) := two_mul_choose_two (a + 2)
        have h2 : 2 * ((b + 2).choose 2) = (b + 2) * (b + 1) := two_mul_choose_two (b + 2)
        rcases Nat.lt_trichotomy a b with hab | hab | hab
        · have := mul_lt_mul'' (show a + 2 < b + 2 by omega)
            (show a + 1 < b + 1 by omega) (by omega) (by omega)
          omega
        · omega
        · have := mul_lt_mul'' (show b + 2 < a + 2 by omega)
            (show b + 1 < a + 1 by omega) (by omega) (by omega)
          omega
  · rintro (rfl | ⟨hn, hm⟩)
    · rfl
    · interval_cases n <;> interval_cases m <;> rfl

theorem choose_two_eq_one_iff (n : ℕ) : n.choose 2 = 1 ↔ n = 2 := by
  rw [show (1 : ℕ) = Nat.choose 2 2 from rfl, choose_two_eq_iff]
  omega

theorem isSome_map_eq (o : Option (List ℝ)) (f : List ℝ → ℝ) :
    (o.map f).isSome = o.isSome := by
  cases o <;> rfl

theorem pdist_pair (p q : List ℝ) : pdist [p, q] = [euclid p q] := by
  simp [pdist]

theorem denomOf_pair (p q : List ℝ) :
    denomOf [p, q] = (List.zipWith (fun a b => (a - b) ^ 2) p q).sum := by
  simp [denomOf, pdist_pair, euclid_sq]

/-! ### Bridging the condensed distance list with indexed pair sums -/

theorem sum_map_getD {α : Type} (dflt : α) (f : α → ℝ) :
    ∀ l : List α, (l.map f).sum = ∑ k ∈ Finset.range l.length, f (l.getD k dflt) := by
  intro l
  induction l with
  | nil => simp
  | cons a t ih =>
    simp only [List.map_cons, List.sum_cons, List.length_cons]
    rw [Finset.sum_range_succ']
    simp only [List.getD_cons_succ, List.getD_cons_zero]
    rw [← ih]
    exact add_comm _ _

theorem sum_zipWith_getD {α β : Type} (da : α) (db : β) (F : α → β → ℝ) :
    ∀ (l : List α) (m : List β), l.length = m.length →
      (List.zipWith F l m).sum
        = ∑ k ∈ Finset.range l.length, F (l.getD k da) (m.getD k db) := by
  intro l
  induction l with
  | nil => intro m _; simp
  | cons a t ih =>
    intro m h
    cases m with
    | nil => simp at h
    | cons b s =>
      simp only [List.zipWith_cons_cons, List.sum_cons, List.length_cons]
      rw [Finset.sum_range_succ']
      simp only [List.getD_cons_succ, List.getD_cons_zero]
      rw [← ih s (by simpa using h)]
      exact add_comm _ _

theorem sum_Ioo_zero_succ (G : ℕ → ℝ) (n : ℕ) :
    ∑ j ∈ Finset.Ioo 0 (n + 1), G j = ∑ k ∈ Finset.range n, G (k + 1) := by
  rw [← Nat.Ico_succ_left, Finset.sum_Ico_eq_sum_range]
  simp only [Nat.add_sub_cancel]
  exact Finset.sum_congr rfl fun k _ => congrArg G (Nat.add_comm 1 k)

theorem sum_Ioo_shift (G : ℕ → ℝ) (i n : ℕ) :
    ∑ j ∈ Finset.Ioo (i + 1) (n + 1), G j = ∑ j ∈ Finset.Ioo i n, G (j + 1) := by
  rw [← Nat.Ico_succ_left, ← Nat.Ico_succ_left, Finset.sum_Ico_eq_sum_range,
    Finset.sum_Ico_eq_sum_range]
  rw [show n + 1 - (i + 1 + 1) = n - (i + 1) from by omega]
  exact Finset.sum_congr rfl fun k _ => congrArg G (by omega)

theorem pairSum_succ (F : ℕ → ℕ → ℝ) (n : ℕ) :
    (∑ i ∈ Finset.range (n + 1), ∑ j ∈ Finset.Ioo i (n + 1), F i j)
      = (∑ k ∈ Finset.range n, F 0 (k + 1))
        + ∑ i ∈ Finset.range n, ∑ j ∈ Finset.Ioo i n, F (i + 1) (j + 1) := by
  rw [Finset.sum_range_succ', sum_Ioo_zero_succ, add_comm]
  congr 1
  exact Finset.sum_congr rfl fun i _ => sum_Ioo_shift (fun j => F (i + 1) j) i n

theorem pdist_map_sum (g : ℝ → ℝ) :
    ∀ X : List (List ℝ), ((pdist X).map g).sum
      = ∑ i ∈ Finset.range X.length, ∑ j ∈ Finset.Ioo i X.length,
          g (euclid (X.getD i []) (X.getD j [])) := by
  intro X
  induction X with
  | nil => simp [pdist]
  | cons p rest ih =>
    simp only [pdist, List.map_append, List.sum_append, List.map_map, List.length_cons]
    rw [pairSum_succ]
    simp only [List.getD_cons_succ, List.getD_cons_zero]
    congr 1
    exact sum_map_getD [] (fun x => g (euclid p x)) rest

theorem pdist_zip_sum (F : ℝ → ℝ → ℝ) :
    ∀ (X R : List (List ℝ)), X.length = R.length →
      (List.zipWith F (pdist X) (pdist R)).sum
        = ∑ i ∈ Finset.range X.length, ∑ j ∈ Finset.Ioo i X.length,
            F (euclid (X.getD i []) (X.getD j []))
              (euclid (R.getD i []) (R.getD j [])) := by
  intro X
  induction X with
  | nil => intro R _; simp [pdist]
  | cons p rest ih =>
    intro R h
    cases R with
    | nil => simp at h
    | cons q rs =>
      have hlen : rest.length = rs.length := by simpa using h
      simp only [pdist, List.length_cons]
      rw [List.zipWith_append _ _ _ _ _ (by simp [hlen]), List.sum_append,
        List.zipWith_map, pairSum_succ]
      simp only [List.getD_cons_succ, List.getD_cons_zero]
      congr 1
      · exact sum_zipWith_getD [] [] (fun a b => F (euclid p a) (euclid q b)) rest rs hlen
      · exact ih rs hlen

theorem denomOf_nonneg (X : List (List ℝ)) : 0 ≤ denomOf X := by
  apply List.sum_nonneg
  intro x hx
  simp only [List.mem_map] at hx
  obtain ⟨d, _, rfl⟩ := hx
  positivity

theorem pdist_map_of_isometry (T : List ℝ → List ℝ)
    (hT : ∀ p q, euclid (T p) (T q) = euclid p q) :
    ∀ X : List (List ℝ), pdist (X.map T) = pdist X := by
  intro X
  induction X with
  | nil => rfl
  | cons p rest ih =>
    simp only [List.map_cons, pdist, ih]
    congr 1
    rw [List.map_map]
    exact List.map_congr_left fun x _ => hT p x

/-! ## Claim theorems -/

/-- C4: for every dataset X with at least two points and nonzero sum of
squared pairwise distances, evaluating stress with X as both the reduced
and the original input yields exactly 0. -/
theorem stress_self_eq_zero (X : List (List ℝ)) (h2 : 2 ≤ X.length)
    (hd : denomOf X ≠ 0) : stress X X = some 0 :=
  stress_of_pdist_eq X X rfl

/-- Witness for C4 at X = [[0],[1]]. -/
theorem stress_self_eq_zero_witness :
    2 ≤ ([[(0:ℝ)], [1]] : List (List ℝ)).length ∧
      denomOf [[(0:ℝ)], [1]] ≠ 0 ∧
      stress [[(0:ℝ)], [1]] [[(0:ℝ)], [1]] = some 0 := by
  have hd : denomOf [[(0:ℝ)], [1]] ≠ 0 := by
    rw [denomOf_pair]
    norm_num
  exact ⟨by norm_num, hd, stress_self_eq_zero _ (by norm_num) hd⟩

/-- C5: for valid inputs (equal point counts, N ≥ 2, nonzero denominator)
the stress evaluator returns a non-negative real number. -/
theorem stress_nonneg (X_reduced X : List (List ℝ))
    (hlen : X.length = X_reduced.length) (h2 : 2 ≤ X.length)
    (hd : denomOf X ≠ 0) :
    ∃ v, stress X_reduced X = some v ∧ 0 ≤ v := by
  rw [stress_eq, sub1d_eq_of_length_eq _ _ (by rw [pdist_length, pdist_length, hlen])]
  exact ⟨_, rfl, Real.sqrt_nonneg _⟩

/-- Witness for C5 at reduced = [[0],[1]], original = [[0],[2]]. -/
theorem stress_nonneg_witness :
    ∃ v, stress [[(0:ℝ)], [1]] [[(0:ℝ)], [2]] = some v ∧ 0 ≤ v :=
  stress_nonneg _ _ rfl (by norm_num) (by rw [denomOf_pair]; norm_num)

/-- C2 counterexample: with original = [[0],[0]] (two coincident points)
and reduced = [[0],[1]], the call returns a value — it does not fail, so
no DegenerateInputError is raised. -/
theorem degenerate_returns_value_cex :
    (stress [[(0:ℝ)], [1]] [[(0:ℝ)], [0]]).isSome = true := rfl

/-- C2 (amended): the code has no degeneracy check and no
DegenerateInputError; when all original points coincide the denominator
Σ d_ij² is zero and the call still returns (numpy produces NaN or
infinity from the zero division) instead of failing. -/
theorem degenerate_no_error (X_reduced X : List (List ℝ))
    (hlen : X.length = X_reduced.length)
    (hco : ∀ p ∈ X, ∀ q ∈ X, p = q) :
    denomOf X = 0 ∧ (stress X_reduced X).isSome = true := by
  refine ⟨denomOf_eq_zero_of_coincide X hco, ?_⟩
  rw [stress_eq, sub1d_eq_of_length_eq _ _ (by rw [pdist_length, pdist_length, hlen])]
  rfl

/-- Witness for C2's amended theorem at original = [[0],[0]],
reduced = [[0],[1]]. -/
theorem degenerate_no_error_witness :
    denomOf [[(0:ℝ)], [0]] = 0 ∧
      (stress [[(0:ℝ)], [1]] [[(0:ℝ)], [0]]).isSome = true := by
  refine degenerate_no_error [[(0:ℝ)], [1]] [[(0:ℝ)], [0]] rfl ?_
  intro p hp q hq
  simp only [List.mem_cons, List.not_mem_nil, or_false] at hp hq
  rcases hp with rfl | rfl <;> rcases hq with rfl | rfl <;> rfl

/-- C3 counterexample: with both datasets a single point (equal counts,
N = 1 < 2) the call returns a value — no InvalidInputError is raised. -/
theorem single_point_no_error_cex :
    (stress [[(0:ℝ)]] [[(0:ℝ)]]).isSome = true := rfl

/-- C3 (amended): the code performs no validation and has no
InvalidInputError. A call succeeds (returns a value) exactly when the two
condensed distance arrays broadcast: equal point counts, or both counts
≤ 1, or either count exactly 2; every other mismatch fails only with a
numpy broadcast error. In particular N < 2 with equal counts, and
mismatches involving a 2-point dataset, return a value. -/
theorem stress_isSome_iff (X_reduced X : List (List ℝ)) :
    (stress X_reduced X).isSome = true ↔
      (X.length = X_reduced.length ∨ (X.length ≤ 1 ∧ X_reduced.length ≤ 1)
        ∨ X.length = 2 ∨ X_reduced.length = 2) := by
  rw [stress_eq, isSome_map_eq, sub1d_isSome_iff, pdist_length, pdist_length,
    choose_two_eq_iff, choose_two_eq_one_iff, choose_two_eq_one_iff]
  tauto

/-- C9: whenever the reduced dataset has exactly 2 points (one pairwise
distance) and the original has more than 2, the evaluator does not
reject the mismatch: the single reduced distance e is broadcast against
every original pair and a numeric value is returned. -/
theorem stress_broadcast_two_points (X_reduced X : List (List ℝ))
    (hred : X_reduced.length = 2) (hX : 2 < X.length) :
    ∃ e, pdist X_reduced = [e] ∧
      stress X_reduced X =
        some (Real.sqrt (((pdist X).map (fun t => (t - e) ^ 2)).sum / denomOf X)) := by
  rcases X_reduced with _ | ⟨a, _ | ⟨b, _ | ⟨c, t⟩⟩⟩ <;>
    simp only [List.length_cons, List.length_nil] at hred <;> try omega
  refine ⟨euclid a b, pdist_pair a b, ?_⟩
  have hlen1 : (pdist X).length ≠ 1 := by
    rw [pdist_length]
    have h3 : Nat.choose 3 2 ≤ X.length.choose 2 := Nat.choose_le_choose 2 hX
    rw [show Nat.choose 3 2 = 3 from rfl] at h3
    omega
  rw [stress_eq, pdist_pair]
  unfold sub1d
  rw [if_neg (by simpa using hlen1), if_neg hlen1,
    if_pos (show [euclid a b].length = 1 from rfl)]
  simp only [Option.map_some', List.headI]
  rw [List.map_map]
  rfl

/-- Witness for C9 at reduced = [[0],[1]], original = [[0],[1],[2]]. -/
theorem stress_broadcast_two_points_witness :
    ∃ e, pdist [[(0:ℝ)], [1]] = [e] ∧
      stress [[(0:ℝ)], [1]] [[(0:ℝ)], [1], [2]] =
        some (Real.sqrt (((pdist [[(0:ℝ)], [1], [2]]).map (fun t => (t - e) ^ 2)).sum
          / denomOf [[(0:ℝ)], [1], [2]])) :=
  stress_broadcast_two_points _ _ rfl (by norm_num)

/-- C10: the evaluator is not symmetric in its two arguments — the
denominator uses only the second argument's distances. Concretely, with
A = [[0],[1]] and B = [[0],[2]] (both valid two-point datasets),
stress(A, B) = 1/2 while stress(B, A) = 1. -/
theorem stress_not_symmetric :
    stress [[(0:ℝ)], [1]] [[(0:ℝ)], [2]] ≠ stress [[(0:ℝ)], [2]] [[(0:ℝ)], [1]] := by
  have ea : euclid [(0:ℝ)] [1] = 1 := by
    unfold euclid
    norm_num
  have eb : euclid [(0:ℝ)] [2] = 2 := by
    unfold euclid
    norm_num
    rw [show (4:ℝ) = 2 ^ 2 by norm_num, Real.sqrt_sq (by norm_num)]
  have h1 : stress [[(0:ℝ)], [1]] [[(0:ℝ)], [2]] = some (1 / 2) := by
    rw [stress_eq, sub1d_eq_of_length_eq _ _ (by simp [pdist_pair])]
    simp only [pdist_pair, ea, eb, Option.map_some]
    rw [denomOf_pair]
    norm_num
    rw [show (4:ℝ) = 2 ^ 2 by norm_num, Real.sqrt_sq (by norm_num)]
    norm_num
  have h2 : stress [[(0:ℝ)], [2]] [[(0:ℝ)], [1]] = some 1 := by
    rw [stress_eq, sub1d_eq_of_length_eq _ _ (by simp [pdist_pair])]
    simp only [pdist_pair, ea, eb, Option.map_some]
    rw [denomOf_pair]
    norm_num
  rw [h1, h2]
  norm_num

/-- C6: for original = [[0,0],[0,3],[4,0]], stress with reduced equal to
the original is exactly 0, and stress with the collapsed reduced
[[0,0],[0,0],[0,0]] is exactly 1 (distances 3, 4, 5 give numerator 50
and denominator 50). -/
theorem stress_concrete_triangle :
    stress [[(0:ℝ), 0], [0, 3], [4, 0]] [[(0:ℝ), 0], [0, 3], [4, 0]] = some 0 ∧
      stress [[(0:ℝ), 0], [0, 0], [0, 0]] [[(0:ℝ), 0], [0, 3], [4, 0]] = some 1 := by
  constructor
  · exact stress_of_pdist_eq _ _ rfl
  · have e1 : euclid [(0:ℝ), 0] [0, 3] = 3 := by
      unfold euclid
      norm_num
      rw [show (9:ℝ) = 3 ^ 2 by norm_num, Real.sqrt_sq (by norm_num)]
    have e2 : euclid [(0:ℝ), 0] [4, 0] = 4 := by
      unfold euclid
      norm_num
      rw [show (16:ℝ) = 4 ^ 2 by norm_num, Real.sqrt_sq (by norm_num)]
    have e3 : euclid [(0:ℝ), 3] [4, 0] = 5 := by
      unfold euclid
      norm_num
      rw [show (25:ℝ) = 5 ^ 2 by norm_num, Real.sqrt_sq (by norm_num)]
    have e0 : euclid [(0:ℝ), 0] [0, 0] = 0 := by
      unfold euclid
      norm_num
    rw [stress_eq, sub1d_eq_of_length_eq _ _ (by simp [pdist])]
    simp only [pdist, List.map_cons, List.map_nil, List.append_nil, List.cons_append,
      List.nil_append, e0, e1, e2, e3, Option.map_some]
    norm_num [denomOf, pdist, e1, e2, e3]

/-- C1: for equal point counts N ≥ 2 and nonzero sum of squared
original-space pairwise distances, the evaluator returns exactly the
spec's formula sqrt( Σ_{i<j} (d_ij − e_ij)² / Σ_{i<j} d_ij² ) over the
same pair ordering i < j. -/
theorem stress_matches_spec (original reduced : List (List ℝ))
    (hlen : original.length = reduced.length) (h2 : 2 ≤ original.length)
    (hd : denomOf original ≠ 0) :
    stress reduced original = some (stressSpec original reduced) := by
  rw [stress_eq, sub1d_eq_of_length_eq _ _ (by rw [pdist_length, pdist_length, hlen]),
    Option.map_some']
  unfold stressSpec
  congr 3
  · rw [List.map_zipWith, pdist_zip_sum _ original reduced hlen]
  · exact pdist_map_sum (fun t => t ^ 2) original

/-- Witness for C1 at original = reduced = [[0],[1]]. -/
theorem stress_matches_spec_witness :
    stress [[(0:ℝ)], [1]] [[(0:ℝ)], [1]]
      = some (stressSpec [[(0:ℝ)], [1]] [[(0:ℝ)], [1]]) :=
  stress_matches_spec _ _ rfl (by norm_num) (by rw [denomOf_pair]; norm_num)

/-- C7: for a fixed valid original X, if reduced A has per-pair squared
distance error at most that of reduced B on every pair (i, j), i < j,
then stress(A, X) ≤ stress(B, X). -/
theorem stress_monotone (X A B : List (List ℝ))
    (hA : X.length = A.length) (hB : X.length = B.length)
    (h2 : 2 ≤ X.length) (hd : denomOf X ≠ 0)
    (hmono : ∀ i j, i < j → j < X.length →
      (euclid (X.getD i []) (X.getD j []) - euclid (A.getD i []) (A.getD j [])) ^ 2
        ≤ (euclid (X.getD i []) (X.getD j []) - euclid (B.getD i []) (B.getD j [])) ^ 2) :
    ∃ a b, stress A X = some a ∧ stress B X = some b ∧ a ≤ b := by
  rw [stress_eq, sub1d_eq_of_length_eq _ _ (by rw [pdist_length, pdist_length, hA]),
    Option.map_some']
  rw [stress_eq, sub1d_eq_of_length_eq _ _ (by rw [pdist_length, pdist_length, hB]),
    Option.map_some']
  refine ⟨_, _, rfl, rfl, ?_⟩
  apply Real.sqrt_le_sqrt
  have hden : 0 < denomOf X := lt_of_le_of_ne (denomOf_nonneg X) (Ne.symm hd)
  rw [div_le_div_iff_of_pos_right hden]
  rw [List.map_zipWith, List.map_zipWith, pdist_zip_sum _ X A hA, pdist_zip_sum _ X B hB]
  apply Finset.sum_le_sum
  intro i _
  apply Finset.sum_le_sum
  intro j hj
  have hij := Finset.mem_Ioo.mp hj
  exact hmono i j hij.1 hij.2

/-- Witness for C7 at X = [[0],[2]], A = [[0],[1]], B = [[0],[0]]. -/
theorem stress_monotone_witness :
    ∃ a b, stress [[(0:ℝ)], [1]] [[(0:ℝ)], [2]] = some a ∧
      stress [[(0:ℝ)], [0]] [[(0:ℝ)], [2]] = some b ∧ a ≤ b := by
  have ea : euclid [(0:ℝ)] [1] = 1 := by
    unfold euclid
    norm_num
  have eb : euclid [(0:ℝ)] [2] = 2 := by
    unfold euclid
    norm_num
    rw [show (4:ℝ) = 2 ^ 2 by norm_num, Real.sqrt_sq (by norm_num)]
  have e0 : euclid [(0:ℝ)] [0] = 0 := by
    unfold euclid
    norm_num
  apply stress_monotone [[(0:ℝ)], [2]] [[(0:ℝ)], [1]] [[(0:ℝ)], [0]] rfl rfl
    (by norm_num) (by rw [denomOf_pair]; norm_num)
  intro i j hij hj
  have hj1 : j = 1 := by
    simp only [List.length_cons, List.length_nil] at hj
    omega
  have hi0 : i = 0 := by omega
  subst hj1
  subst hi0
  simp only [List.getD_cons_zero, List.getD_cons_succ]
  norm_num [ea, eb, e0]

/-- C8: applying any distance-preserving transform T pointwise to a
valid dataset X and using the result as the reduced input yields stress
exactly 0 (covers every composition of rotation, reflection, and
translation). -/
theorem stress_isometry_zero (X : List (List ℝ)) (T : List ℝ → List ℝ)
    (hT : ∀ p q, euclid (T p) (T q) = euclid p q)
    (h2 : 2 ≤ X.length) (hd : denomOf X ≠ 0) :
    stress (X.map T) X = some 0 :=
  stress_of_pdist_eq _ _ (pdist_map_of_isometry T hT X)

/-- Witness for C8 at X = [[0],[1]] with T the translation by 1. -/
theorem stress_isometry_zero_witness :
    stress ([[(0:ℝ)], [1]].map (fun p => p.map (fun a => a + 1)))
      [[(0:ℝ)], [1]] = some 0 := by
  have hT : ∀ p q : List ℝ,
      euclid (p.map (fun a => a + 1)) (q.map (fun a => a + 1)) = euclid p q := by
    intro p q
    unfold euclid
    rw [List.zipWith_map]
    simp only [add_sub_add_right_eq_sub]
  have hd : denomOf [[(0:ℝ)], [1]] ≠ 0 := by
    rw [denomOf_pair]
    norm_num
  exact stress_isometry_zero _ _ hT (by norm_num) hd

end DimRed
